import Mathlib

/-
Verification of the lexer in crates/lexer/src/lexer.rs.

The Rust lexer keeps a three character lookahead window (current,
first_ahead, second_ahead) over a character iterator, together with an
integer position.  After `Lexer::new` primes the window with two advances
and resets the position to -1, the following invariant holds and is
preserved by every `advance` call:

  current      = character of the input at index `position`   (or the
                 sentinel NUL character when the index is out of range),
  first_ahead  = character at index position+1 (or sentinel),
  second_ahead = character at index position+2 (or sentinel),
  the iterator is about to yield the character at index position+3.

Because an exhausted iterator yields the sentinel and an in-range NUL
character is indistinguishable from the sentinel, the whole mutable state
is a function of the pair (input, position).  The embedding below
therefore represents the lexer state by exactly that pair and derives the
window slots from it; `advance` increments the position.

Loops (`eat_while`, the trivia loop, the token stream) are embedded with
explicit fuel; running out of fuel is reported as `LexErr.fuelOut`, so a
run that returns `LexErr.fuelOut` for every fuel value models
non-termination of the Rust loop.  The two panics the Rust code can hit -
a byte-range string slice at a non character boundary, and `.unwrap()` of
a failed numeric parse (including the `unreachable!` arm) - are modelled
as the explicit errors `panicSlice`, `panicParse` and `panicUnreachable`.

Rust standard library functions used by the lexer (`char::is_whitespace`,
`char::is_ascii_digit`, `char::is_alphanumeric`, `u64::from_str`,
`f64::from_str`, byte-range `str` indexing) are embedded after their
documented behaviour; each carries a doc comment stating the modelling
choices.
-/

namespace JackLexer

/-- The end of input sentinel character, `const EOF_CHAR: char = '\0'`. -/
def EOF_CHAR : Char := '\x00'

/-- The reserved word tags, mirroring `enum KeyWord`. -/
inductive KeyWord
  | Let
  | If
  | Enum
  | Return
  | Function
  | Struct
  deriving Repr, DecidableEq

/-- The keyword table `KEY_WORDS`.  The Rust code uses a perfect hash map;
only the key/value mapping is observable, so it is embedded as the
association list with the same six entries. -/
def KEY_WORDS : List (List Char × KeyWord) :=
  [("fn".toList, KeyWord.Function),
   ("let".toList, KeyWord.Let),
   ("if".toList, KeyWord.If),
   ("enum".toList, KeyWord.Enum),
   ("return".toList, KeyWord.Return),
   ("struct".toList, KeyWord.Struct)]

/-- Lookup in the keyword table, `KEY_WORDS.get(chars)`. -/
def keyWordsGet (cs : List Char) : Option KeyWord :=
  (KEY_WORDS.find? (fun p => decide (p.1 = cs))).map (fun p => p.2)

/-- Token kinds, mirroring `enum TokenKind`.  Rust stores the integer
value as `u64` and the float value as `f64`; the embedding stores the
integer as a `Nat` (the parse enforces the `u64` bound) and the float as
the exact rational value that the decimal text denotes.  Every concrete
float value compared in a theorem below (such as 12.5) is exactly
representable in binary64, so the rounding step of `f64` parsing is the
identity on it. -/
inductive TokenKind
  | Integer (v : Nat)
  | Float (v : ℚ)
  | Plus
  | Minus
  | Divide
  | Multiply
  | Assign
  | Semi
  | EOF
  | Ident
  | Invalid
  | RangeUntil
  | RangeEqual
  | Dereference
  | LParen
  | RParen
  | LCurly
  | RCurly
  | Keyword (k : KeyWord)
  deriving Repr, DecidableEq

/-- A token: its text span (list of characters) and its kind, mirroring
`struct Token`. -/
structure Token where
  chars : List Char
  token_kind : TokenKind
  deriving Repr, DecidableEq

/-- Rust `char::is_ascii_digit`. -/
def rustIsAsciiDigit (c : Char) : Bool :=
  decide ('0' ≤ c ∧ c ≤ '9')

/-- Rust `char::is_whitespace`: the Unicode White_Space property, whose
full character list is fixed and reproduced here exactly. -/
def rustIsWhitespace (c : Char) : Bool :=
  decide (c.toNat ∈ ([9, 10, 11, 12, 13, 32, 133, 160, 5760,
    8192, 8193, 8194, 8195, 8196, 8197, 8198, 8199, 8200, 8201, 8202,
    8232, 8233, 8239, 8287, 12288] : List Nat))

/-- Rust `char::is_alphanumeric` (Unicode Alphabetic or Nd/Nl/No).  On the
ASCII range the Unicode property coincides with letter-or-digit, which is
embedded exactly; the full non-ASCII Unicode tables are not reproduced -
beyond ASCII only the letter LATIN SMALL LETTER E WITH ACUTE, the single
non-ASCII character exercised anywhere in this file, is listed.  Every
universally quantified theorem below restricts the input to ASCII, so no
statement depends on the unlisted characters. -/
def rustIsAlphanumeric (c : Char) : Bool :=
  if c.toNat < 128 then c.isAlpha || c.isDigit else decide (c = 'é')

/-- `fn is_digit(ch: char) -> bool`: an ASCII digit or an underscore. -/
def is_digit (ch : Char) : Bool :=
  rustIsAsciiDigit ch || decide (ch = '_')

/-- `fn is_continuing_alpha(ch: char) -> bool`: alphanumeric or
underscore. -/
def is_continuing_alpha (ch : Char) : Bool :=
  rustIsAlphanumeric ch || decide (ch = '_')

/-- The lexer state.  As explained in the header comment, the character
iterator and the three window slots of `struct Lexer` are functions of
the input and the position, so only those two fields are stored. -/
structure Lexer where
  input : List Char
  position : Int
  deriving Repr, DecidableEq

/-- The character the window holds for index `i`: the input character at
`i` when `i` is in range, the sentinel otherwise. -/
def Lexer.slot (s : Lexer) (i : Int) : Char :=
  if i < 0 then EOF_CHAR else s.input.getD i.toNat EOF_CHAR

/-- The `current` window slot. -/
def Lexer.current (s : Lexer) : Char := s.slot s.position

/-- The `first_ahead` window slot. -/
def Lexer.first_ahead (s : Lexer) : Char := s.slot (s.position + 1)

/-- The `second_ahead` window slot. -/
def Lexer.second_ahead (s : Lexer) : Char := s.slot (s.position + 2)

/-- `Lexer::advance`: shift the window one character forward. -/
def Lexer.advance (s : Lexer) : Lexer :=
  { s with position := s.position + 1 }

/-- `Lexer::get_pos`: `self.position as usize`.  Every call site runs
after at least one `advance` from a state with position at least -1, so
the position is non-negative there and `Int.toNat` agrees with the Rust
cast. -/
def Lexer.get_pos (s : Lexer) : Nat := s.position.toNat

/-- Errors of the embedded execution: `fuelOut` models non-termination
when it occurs at every fuel, `panicSlice` a byte-slice at a non
character boundary, `panicParse` a failed `.unwrap()` of a numeric parse,
`panicUnreachable` the `unreachable!` arm of `read_number`. -/
inductive LexErr
  | fuelOut
  | panicSlice
  | panicParse
  | panicUnreachable
  deriving Repr, DecidableEq

/-- `Lexer::eat_while`: advance while the predicate holds of
`first_ahead`.  Fuel bounds the number of advances. -/
def Lexer.eat_while (f : Char → Bool) : Nat → Lexer → Except LexErr Lexer
  | 0, s => if f s.first_ahead then .error .fuelOut else .ok s
  | n + 1, s => if f s.first_ahead then Lexer.eat_while f n s.advance else .ok s

/-- UTF-8 byte length of a character list (Rust `str::len`). -/
def charsUtf8Len (cs : List Char) : Nat := (cs.map Char.utf8Size).sum

/-- Drop `n` UTF-8 bytes from the front of a character list; `none` when
`n` is not a character boundary (Rust would panic). -/
def dropBytes : List Char → Nat → Option (List Char)
  | cs, 0 => some cs
  | [], _ + 1 => none
  | c :: cs, n + 1 =>
    if c.utf8Size ≤ n + 1 then dropBytes cs (n + 1 - c.utf8Size) else none

/-- Take the first `n` UTF-8 bytes of a character list; `none` when `n`
is not a character boundary (Rust would panic). -/
def takeBytes : List Char → Nat → Option (List Char)
  | _, 0 => some []
  | [], _ + 1 => none
  | c :: cs, n + 1 =>
    if c.utf8Size ≤ n + 1 then (takeBytes cs (n + 1 - c.utf8Size)).map (fun r => c :: r)
    else none

/-- Rust byte-range string indexing `&input[a..b]` (the code writes the
inclusive form `a..=e`, which is `a..e+1`): the characters whose bytes
span `[a, b)`, or `none` - modelling the boundary panic - when either
index is not a character boundary, exceeds the length, or the range is
inverted. -/
def sliceBytes (cs : List Char) (a b : Nat) : Option (List Char) :=
  if a ≤ b then (dropBytes cs a).bind (fun rest => takeBytes rest (b - a)) else none

/-- Rust `u64::from_str` (the `parse::<u64>()` call): an optional plus
sign followed by at least one ASCII digit; underscores or any other
character fail, as does a value exceeding the `u64` maximum. -/
def rustParseU64 (cs : List Char) : Option Nat :=
  let ds := match cs with
    | '+' :: rest => rest
    | _ => cs
  if ds = [] then none
  else if ds.all rustIsAsciiDigit then
    let v := ds.foldl (fun a c => a * 10 + (c.toNat - 48)) 0
    if v < 18446744073709551616 then some v else none
  else none

/-- The number denoted by a list of ASCII digits. -/
def digitsVal (ds : List Char) : Nat :=
  ds.foldl (fun a c => a * 10 + (c.toNat - 48)) 0

/-- Rust `f64::from_str` (the `parse::<f64>()` call) on its decimal
number grammar: optional sign, then either `digits [. digits] [exp]` or
`. digits [exp]`, with `exp = (e|E) [sign] digits`.  The result is the
exact rational value of the text - rounding to binary64 is not modelled,
and the word forms `inf`, `infinity` and `NaN` are omitted: every span
this lexer ever parses as a float starts with an ASCII digit, and each
float value stated in a theorem below is exactly representable in
binary64, so both simplifications are invisible to the theorems. -/
def rustParseF64 (cs : List Char) : Option ℚ :=
  let sp : ℚ × List Char := match cs with
    | '-' :: rest => (-1, rest)
    | '+' :: rest => (1, rest)
    | _ => (1, cs)
  let ip := sp.2.takeWhile rustIsAsciiDigit
  let rest1 := sp.2.dropWhile rustIsAsciiDigit
  let fpPart : List Char × List Char × Bool := match rest1 with
    | '.' :: rest =>
      (rest.takeWhile rustIsAsciiDigit, rest.dropWhile rustIsAsciiDigit,
       decide (ip ≠ []) || decide (rest.takeWhile rustIsAsciiDigit ≠ []))
    | _ => ([], rest1, decide (ip ≠ []))
  let fp := fpPart.1
  let mantissa : ℚ := sp.1 * ((digitsVal ip : ℚ) + (digitsVal fp : ℚ) / (10 : ℚ) ^ fp.length)
  match fpPart.2.1 with
  | [] => if fpPart.2.2 then some mantissa else none
  | e :: rest =>
    if e = 'e' ∨ e = 'E' then
      let se : Int × List Char := match rest with
        | '-' :: r => (-1, r)
        | '+' :: r => (1, r)
        | _ => (1, rest)
      let ed := se.2.takeWhile rustIsAsciiDigit
      let rest2 := se.2.dropWhile rustIsAsciiDigit
      if fpPart.2.2 ∧ ed ≠ [] ∧ rest2 = [] then
        some (mantissa * (10 : ℚ) ^ (se.1 * (digitsVal ed : Int)))
      else none
    else none

/-- The exponent step of `Lexer::read_float`: if `first_ahead` is an
exponent marker, consume it and an optional sign and clear the `is_valid`
flag; otherwise leave the state alone with the flag set.  Factored out of
`read_float` so the step can be reasoned about in isolation. -/
def Lexer.read_float_exp (s : Lexer) : Bool × Lexer :=
  if s.first_ahead = 'e' ∨ s.first_ahead = 'E' then
    let s := s.advance
    let s := if s.first_ahead = '-' ∨ s.first_ahead = '+' then s.advance else s
    (false, s)
  else (true, s)

/-- `Lexer::read_float`: advance past the dot onto the first fraction
digit, then consume the fraction and an optional exponent, returning the
classification.  Mirrors the Rust control flow statement by statement,
including the `is_valid` flag. -/
def Lexer.read_float (n : Nat) (s0 : Lexer) : Except LexErr (TokenKind × Lexer) := do
  let s := s0.advance.advance
  if rustIsAsciiDigit s.current = false then
    if rustIsAlphanumeric s.current then do
      let s ← s.eat_while rustIsAlphanumeric n
      return (TokenKind.Invalid, s)
    else
      return (TokenKind.Invalid, s)
  else do
    let s ← s.eat_while is_digit n
    let step := s.read_float_exp
    let is_valid := if rustIsAsciiDigit step.2.current then true else step.1
    let s ← step.2.eat_while is_digit n
    if is_valid then return (TokenKind.Float 0, s) else return (TokenKind.Invalid, s)

/-- `Lexer::read_number`: consume the digit run, detect a float, slice
the covered span out of the input by byte range and parse it. -/
def Lexer.read_number (n : Nat) (s0 : Lexer) : Except LexErr (Token × Lexer) := do
  let start_pos := s0.get_pos
  let s ← s0.eat_while is_digit n
  let tks : TokenKind × Lexer ←
    if s.first_ahead = '.' ∧ is_digit s.second_ahead = true then
      s.read_float n
    else
      pure (TokenKind.Integer 0, s)
  let token_kind := tks.1
  let s := tks.2
  let len := s.get_pos - start_pos
  match sliceBytes s.input start_pos (start_pos + len + 1) with
  | none => .error .panicSlice
  | some chars =>
    match token_kind with
    | TokenKind.Integer _ =>
      match rustParseU64 chars with
      | some v => .ok (⟨chars, TokenKind.Integer v⟩, s)
      | none => .error .panicParse
    | TokenKind.Float _ =>
      match rustParseF64 chars with
      | some v => .ok (⟨chars, TokenKind.Float v⟩, s)
      | none => .error .panicParse
    | TokenKind.Invalid => .ok (⟨chars, TokenKind.Invalid⟩, s)
    | _ => .error .panicUnreachable

/-- `Lexer::eat_whitespace_and_comments`: the trivia loop.  Each loop
iteration consumes one unit of fuel. -/
def Lexer.eat_whitespace_and_comments : Nat → Lexer → Except LexErr Lexer
  | 0, _ => .error .fuelOut
  | n + 1, s =>
    if rustIsWhitespace s.current then do
      let s ← s.eat_while rustIsWhitespace n
      Lexer.eat_whitespace_and_comments n s.advance
    else if s.current = '/' ∧ s.first_ahead = '/' then do
      let s ← s.eat_while (fun c => !(c = '\n')) n
      Lexer.eat_whitespace_and_comments n s.advance
    else .ok s

/-- The opening curly brace character. -/
def LBRACE : Char := Char.ofNat 123

/-- The closing curly brace character. -/
def RBRACE : Char := Char.ofNat 125

/-- The recognizer of `Lexer::next_token`: the match on `current` that
classifies one token, after the trivia loop has run.  Factored out of
`next_token` so that each arm can be reasoned about directly; `next_token`
below is the composition of the initial advance, the trivia loop and this
match, exactly as in the Rust function. -/
def Lexer.recognise (n : Nat) (s : Lexer) : Except LexErr (Token × Lexer) :=
  let start_pos := s.get_pos
  let c := s.current
  if c = '+' then .ok (⟨['+'], TokenKind.Plus⟩, s)
  else if c = '-' then .ok (⟨['-'], TokenKind.Minus⟩, s)
  else if c = '/' then .ok (⟨['/'], TokenKind.Divide⟩, s)
  else if c = '*' then .ok (⟨['*'], TokenKind.Multiply⟩, s)
  else if c = '=' then .ok (⟨['='], TokenKind.Assign⟩, s)
  else if c = ';' then .ok (⟨[';'], TokenKind.Semi⟩, s)
  else if c = '(' then .ok (⟨['('], TokenKind.LParen⟩, s)
  else if c = ')' then .ok (⟨[')'], TokenKind.RParen⟩, s)
  else if c = LBRACE then .ok (⟨[LBRACE], TokenKind.LCurly⟩, s)
  else if c = RBRACE then .ok (⟨[RBRACE], TokenKind.RCurly⟩, s)
  else if c = EOF_CHAR then .ok (⟨[EOF_CHAR], TokenKind.EOF⟩, s)
  else if c = '.' then
    if s.first_ahead = '.' then
      let s := s.advance
      if s.first_ahead = '=' then
        .ok (⟨['.', '.', '='], TokenKind.RangeEqual⟩, s.advance)
      else
        .ok (⟨['.', '.'], TokenKind.RangeUntil⟩, s)
    else
      .ok (⟨['.'], TokenKind.Dereference⟩, s)
  else if decide ('0' ≤ c ∧ c ≤ '9') then
    s.read_number n
  else if decide ('a' ≤ c ∧ c ≤ 'z') || decide ('A' ≤ c ∧ c ≤ 'Z') || decide (c = '_') then do
    let s ← s.eat_while is_continuing_alpha n
    match sliceBytes s.input start_pos (s.get_pos + 1) with
    | none => .error .panicSlice
    | some chars =>
      match keyWordsGet chars with
      | none => .ok (⟨chars, TokenKind.Ident⟩, s)
      | some keyword => .ok (⟨chars, TokenKind.Keyword keyword⟩, s)
  else
    match sliceBytes s.input start_pos (start_pos + 1) with
    | none => .error .panicSlice
    | some chars => .ok (⟨chars, TokenKind.Invalid⟩, s)

/-- `Lexer::next_token`: one advance, the trivia loop, then recognition.
Besides the token and the new state, the embedding also returns the list
of trivia characters the call skipped (the characters between the
position reached by the initial advance and the start of the recognized
token); the Rust function discards them, and they are carried here only
so that the span coverage property can be stated. -/
def Lexer.next_token (n : Nat) (s0 : Lexer) : Except LexErr (List Char × Token × Lexer) := do
  let sA := s0.advance
  let s ← sA.eat_whitespace_and_comments n
  let trivia := (s0.input.drop sA.get_pos).take (s.get_pos - sA.get_pos)
  let r ← s.recognise n
  .ok (trivia, r.1, r.2)

/-- `Lexer::new`: after the priming sequence (two advances, then the
position reset to -1) the state is exactly the pair (input, -1); see the
header comment for the window invariant. -/
def mkLexer (input : List Char) : Lexer := ⟨input, -1⟩

/-- The pull loop of `tokenise`: collect (trivia, token) pairs until a
call recognizes `EOF`, whose token is not yielded; its trivia is returned
separately as the final skipped run.  Fuel bounds the number of pulls,
and each pull hands its fuel predecessor to `next_token`. -/
def tokeniseAux : Nat → Lexer → Except LexErr (List (List Char × Token) × List Char × Lexer)
  | 0, _ => .error .fuelOut
  | n + 1, s => do
    let r ← s.next_token n
    if r.2.1.token_kind = TokenKind.EOF then .ok ([], r.1, r.2.2)
    else do
      let rest ← tokeniseAux n r.2.2
      .ok ((r.1, r.2.1) :: rest.1, rest.2.1, rest.2.2)

/-- `fn tokenise`: the token stream run to exhaustion, returning the
yielded (trivia, token) pairs and the final trivia run. -/
def tokenise (input : List Char) (fuel : Nat) :
    Except LexErr (List (List Char × Token) × List Char) :=
  (tokeniseAux fuel (mkLexer input)).map (fun r => (r.1, r.2.1))

/-- The yielded tokens of `tokenise`, trivia dropped. -/
def tokens (input : List Char) (fuel : Nat) : Except LexErr (List Token) :=
  (tokenise input fuel).map (fun r => r.1.map (fun p => p.2))

/-- Interleave the skipped trivia runs with the token spans and append
the final trivia run: the reconstruction of the input that the span
coverage property talks about. -/
def reassemble (r : List (List Char × Token) × List Char) : List Char :=
  (r.1.map (fun p => p.1 ++ p.2.chars)).flatten ++ r.2

/-- The sublist of `cs` from character index `a` (inclusive) to `b`
(exclusive): the reference value that a byte slice yields when every
character is one byte. -/
def sliceChars (cs : List Char) (a b : Nat) : List Char :=
  (cs.drop a).take (b - a)

/-- Characters are all ASCII. -/
def allAscii (cs : List Char) : Bool := cs.all (fun c => c.toNat < 128)

/-- Characters are all ASCII and none is the NUL character. -/
def asciiNoNul (cs : List Char) : Bool :=
  cs.all (fun c => 0 < c.toNat ∧ c.toNat < 128)

/-- Decidable equality for `Except`, so that concrete runs of the lexer
can be compared by `decide`. -/
instance {e a : Type} [DecidableEq e] [DecidableEq a] : DecidableEq (Except e a) :=
  fun x y =>
    match x, y with
    | .ok v, .ok w =>
      if h : v = w then .isTrue (by rw [h]) else .isFalse (fun hh => by cases hh; exact h rfl)
    | .error v, .error w =>
      if h : v = w then .isTrue (by rw [h]) else .isFalse (fun hh => by cases hh; exact h rfl)
    | .ok _, .error _ => .isFalse (fun hh => by cases hh)
    | .error _, .ok _ => .isFalse (fun hh => by cases hh)

end JackLexer


namespace JackLexer

/-- `Except.bind` applied to a success. -/
theorem ebind_ok {α β : Type} (a : α) (f : α → Except LexErr β) :
    (Except.ok a >>= f) = f a := rfl

/-- `Except.bind` applied to an error. -/
theorem ebind_error {α β : Type} (e : LexErr) (f : α → Except LexErr β) :
    ((Except.error e : Except LexErr α) >>= f) = Except.error e := rfl

/-- Advancing does not change the input, so it does not change the window
function. -/
theorem slot_advance (s : Lexer) (i : Int) : s.advance.slot i = s.slot i := rfl

/-- If every window slot strictly after the current position satisfies the
predicate, `eat_while` exhausts any amount of fuel: the Rust loop never
terminates. -/
theorem eat_while_diverge (f : Char → Bool) :
    ∀ (n : Nat) (s : Lexer), (∀ i : Int, s.position < i → f (s.slot i) = true) →
      Lexer.eat_while f n s = .error .fuelOut := by
  intro n
  induction n with
  | zero =>
    intro s h
    have hfa : f s.first_ahead = true := h (s.position + 1) (by omega)
    simp [Lexer.eat_while, Lexer.first_ahead] at hfa ⊢
    exact hfa
  | succ n ih =>
    intro s h
    have hfa : f s.first_ahead = true := h (s.position + 1) (by omega)
    unfold Lexer.eat_while
    rw [hfa]
    simp only [if_true]
    exact ih s.advance (fun i hi => by
      rw [slot_advance]
      exact h i (by simp [Lexer.advance] at hi; omega))

end JackLexer

namespace JackLexer

/-- On the two-slash input, every window slot after position 0 is a slash
or the sentinel, never a newline, so the comment loop's predicate holds
forever. -/
theorem comment_trivia_diverge :
    ∀ n, Lexer.eat_whitespace_and_comments n ⟨['/', '/'], 0⟩ = .error .fuelOut := by
  have hdiv : ∀ m, Lexer.eat_while (fun c => !(c = '\n')) m ⟨['/', '/'], 0⟩
      = .error .fuelOut := by
    intro m
    apply eat_while_diverge
    intro i _
    simp only [Lexer.slot]
    split
    · decide
    · generalize i.toNat = k
      match k with
      | 0 => decide
      | 1 => decide
      | k + 2 => simp [List.getD]; decide
  intro n
  match n with
  | 0 => rfl
  | n + 1 =>
    unfold Lexer.eat_whitespace_and_comments
    rw [show rustIsWhitespace (Lexer.current ⟨['/', '/'], 0⟩) = false from by decide]
    rw [if_neg (by simp)]
    rw [if_pos (by constructor <;> decide)]
    rw [hdiv n, ebind_error]

/-- On the two-slash input every call to `next_token` runs out of any
amount of fuel inside the trivia loop. -/
theorem c1_next_token_diverge :
    ∀ n, Lexer.next_token n ⟨['/', '/'], -1⟩ = .error .fuelOut := by
  intro n
  show (Lexer.advance ⟨['/', '/'], -1⟩).eat_whitespace_and_comments n >>= _
      = .error .fuelOut
  rw [show Lexer.advance ⟨['/', '/'], -1⟩ = ⟨['/', '/'], 0⟩ from by
    simp [Lexer.advance]]
  rw [comment_trivia_diverge n, ebind_error]

end JackLexer

namespace JackLexer

/-- C1: the claim states that pulling tokens to exhaustion terminates for
every input and always reaches EndOfInput.  The code violates it: on the
input consisting of two slashes (a line comment not terminated by a
newline) the trivia loop advances forever, because past end of input
`first_ahead` is the NUL sentinel, which differs from the newline the
comment loop is waiting for; the token stream exhausts every amount of
fuel, i.e. the Rust iterator never yields nor ends. -/
theorem c1_totality_diverges_on_unterminated_comment :
    ∀ fuel, tokenise "//".toList fuel = .error .fuelOut := by
  intro fuel
  match fuel with
  | 0 => rfl
  | n + 1 =>
    show (tokeniseAux (n + 1) (mkLexer "//".toList)).map _ = _
    unfold tokeniseAux
    rw [show mkLexer "//".toList = ⟨['/', '/'], -1⟩ from rfl]
    rw [c1_next_token_diverge n, ebind_error]
    rfl

/-- C2: the claim states that every span the scanner classifies as
Integer or Float parses successfully, so the unwrap in read_number is
unreachable, underscores included.  The code violates it: the digit run
accepts underscores, the span of the input consisting of the three
characters one, underscore, two is classified Integer, and parsing that
span as an unsigned 64-bit integer fails, so the unwrap panics. -/
theorem c2_unwrap_panics_on_underscore :
    tokenise "1_2".toList 32 = .error .panicParse ∧
    rustParseU64 "1_2".toList = none := by
  exact ⟨rfl, rfl⟩

/-- C3: the claim states that a fractional literal with a digit after the
exponent marker is classified Float.  The code violates it: after
consuming the marker (and optional sign) it tests `current` - which then
holds the marker or the sign, never the following digit - so `is_valid`
stays false and both example inputs yield a single Invalid token. -/
theorem c3_exponent_literals_are_invalid :
    tokens "1.2e10".toList 32 = .ok [⟨"1.2e10".toList, TokenKind.Invalid⟩] ∧
    tokens "1.2e+3".toList 32 = .ok [⟨"1.2e+3".toList, TokenKind.Invalid⟩] := by
  exact ⟨rfl, rfl⟩

/-- C5: greedy longest-match disambiguation of the dot family, on the
four inputs the claim lists. -/
theorem c5_dot_family :
    tokens ".".toList 32 = .ok [⟨['.'], TokenKind.Dereference⟩] ∧
    tokens "..".toList 32 = .ok [⟨['.', '.'], TokenKind.RangeUntil⟩] ∧
    tokens "..=".toList 32 = .ok [⟨['.', '.', '='], TokenKind.RangeEqual⟩] ∧
    tokens "...=".toList 32 =
      .ok [⟨['.', '.'], TokenKind.RangeUntil⟩,
           ⟨['.'], TokenKind.Dereference⟩,
           ⟨['='], TokenKind.Assign⟩] := by
  exact ⟨rfl, rfl, rfl, rfl⟩

/-- C6: basic numeric classification on the four inputs the claim lists;
the float value 12.5 is stated as the exact rational 25/2, which is
exactly representable in binary64. -/
theorem c6_numeric_classification :
    tokens "123".toList 32 = .ok [⟨"123".toList, TokenKind.Integer 123⟩] ∧
    tokens "12.5".toList 32 = .ok [⟨"12.5".toList, TokenKind.Float ((25 : ℚ) / 2)⟩] ∧
    tokens "1.".toList 32 =
      .ok [⟨['1'], TokenKind.Integer 1⟩, ⟨['.'], TokenKind.Dereference⟩] ∧
    tokens "1.2e".toList 32 = .ok [⟨"1.2e".toList, TokenKind.Invalid⟩] := by
  exact ⟨rfl, by with_unfolding_all rfl, rfl, rfl⟩

/-- C7: identifier scanning takes the maximal alphanumeric-or-underscore
run and consults the keyword table on the full span, on the three inputs
the claim lists. -/
theorem c7_keyword_vs_identifier :
    tokens "fn".toList 32 = .ok [⟨"fn".toList, TokenKind.Keyword KeyWord.Function⟩] ∧
    tokens "fnx".toList 32 = .ok [⟨"fnx".toList, TokenKind.Ident⟩] ∧
    tokens "_let".toList 32 = .ok [⟨"_let".toList, TokenKind.Ident⟩] := by
  exact ⟨rfl, rfl, rfl⟩

/-- C8: an unrecognized character becomes an Invalid token spanning just
that character and scanning continues. -/
theorem c8_invalid_recovery :
    tokens "1 @ 2".toList 32 =
      .ok [⟨['1'], TokenKind.Integer 1⟩,
           ⟨['@'], TokenKind.Invalid⟩,
           ⟨['2'], TokenKind.Integer 2⟩] := by
  rfl

end JackLexer

namespace JackLexer

/-- C4 counterexample: the claim states that for every input the trivia
runs and token spans concatenate back to the input.  Two refutations: on
an input with an embedded NUL character the stream stops at the NUL and
the reassembly loses the tail; on an input beginning with two non-ASCII
NO-BREAK SPACE characters the byte-indexed slice grabs the wrong
characters, the lexer completes normally, and the reassembly differs from
the input. -/
theorem c4_counterexample :
    (tokenise "1\x002".toList 32 =
       .ok ([([], ⟨['1'], TokenKind.Integer 1⟩)], []) ∧
     reassemble ([([], ⟨['1'], TokenKind.Integer 1⟩)], []) ≠ "1\x002".toList) ∧
    (tokenise ['\xA0', '\xA0', 'a', 'b'] 32 =
       .ok ([(['\xA0', '\xA0'], ⟨['\xA0'], TokenKind.Ident⟩)], []) ∧
     reassemble ([(['\xA0', '\xA0'], ⟨['\xA0'], TokenKind.Ident⟩)], []) ≠
       ['\xA0', '\xA0', 'a', 'b']) := by
  exact ⟨⟨rfl, by decide⟩, ⟨rfl, by decide⟩⟩

/-- C9 counterexample: the claim states that the token stream ends as
soon as scanning reaches an embedded NUL, with no tokens for later
characters.  But a NUL inside a line comment is consumed by the comment
loop (whose predicate only stops at a newline), so on this input the
lexer runs past the NUL at index 2 and still yields the identifier `a`
at index 4. -/
theorem c9_counterexample :
    "//\x00\na".toList = ['/', '/', '\x00', '\n', 'a'] ∧
    tokens "//\x00\na".toList 32 = .ok [⟨['a'], TokenKind.Ident⟩] := by
  exact ⟨rfl, rfl⟩

end JackLexer

namespace JackLexer

/-- A slot outside the input range holds the sentinel. -/
theorem slot_out_of_range (s : Lexer) (i : Int)
    (h : ¬(0 ≤ i ∧ i.toNat < s.input.length)) : s.slot i = EOF_CHAR := by
  unfold Lexer.slot
  split
  · rfl
  · next h2 =>
    apply List.getD_eq_default
    omega

/-- A slot holding a non-sentinel character is inside the input range. -/
theorem slot_ne_eof (s : Lexer) (i : Int) (h : s.slot i ≠ EOF_CHAR) :
    0 ≤ i ∧ i.toNat < s.input.length := by
  by_contra hc
  exact h (slot_out_of_range s i hc)

/-- A character satisfying a predicate that fails on the sentinel is not
the sentinel. -/
theorem ne_eof_of_pred {f : Char → Bool} {c : Char} (hf : f EOF_CHAR = false)
    (hc : f c = true) : c ≠ EOF_CHAR := by
  intro he
  rw [he, hf] at hc
  cases hc

/-- The digit-run predicate fails on the sentinel. -/
theorem is_digit_eof : is_digit EOF_CHAR = false := rfl

/-- The whitespace predicate fails on the sentinel. -/
theorem rustIsWhitespace_eof : rustIsWhitespace EOF_CHAR = false := rfl

/-- The alphanumeric predicate fails on the sentinel. -/
theorem rustIsAlphanumeric_eof : rustIsAlphanumeric EOF_CHAR = false := rfl

/-- The identifier-continuation predicate fails on the sentinel. -/
theorem is_continuing_alpha_eof : is_continuing_alpha EOF_CHAR = false := rfl

/-- What a successful `eat_while` run guarantees: the input is unchanged,
the position only moved forward, either it did not move at all or the
final `current` satisfies the predicate, and the final `first_ahead`
fails it. -/
theorem eat_while_ok (f : Char → Bool) :
    ∀ (n : Nat) (s s' : Lexer), Lexer.eat_while f n s = .ok s' →
      s'.input = s.input ∧ s.position ≤ s'.position ∧
      (s' = s ∨ f s'.current = true) ∧ f s'.first_ahead = false := by
  intro n
  induction n with
  | zero =>
    intro s s' h
    unfold Lexer.eat_while at h
    split at h
    · cases h
    · next hcond =>
      cases h
      exact ⟨rfl, le_refl _, Or.inl rfl, by simpa using hcond⟩
  | succ n ih =>
    intro s s' h
    unfold Lexer.eat_while at h
    split at h
    · next hcond =>
      obtain ⟨h1, h2, h3, h4⟩ := ih s.advance s' h
      have hadv : s.advance.position = s.position + 1 := rfl
      refine ⟨h1, by omega, ?_, h4⟩
      rcases h3 with h3 | h3
      · right
        rw [h3]
        show f (s.advance.slot s.advance.position) = true
        rw [slot_advance, hadv]
        exact hcond
      · exact Or.inr h3
    · next hcond =>
      cases h
      exact ⟨rfl, le_refl _, Or.inl rfl, by simpa using hcond⟩

/-- `eat_while` can only fail by running out of fuel. -/
theorem eat_while_error (f : Char → Bool) :
    ∀ (n : Nat) (s : Lexer) (e : LexErr),
      Lexer.eat_while f n s = .error e → e = .fuelOut := by
  intro n
  induction n with
  | zero =>
    intro s e h
    unfold Lexer.eat_while at h
    split at h
    · cases h; rfl
    · cases h
  | succ n ih =>
    intro s e h
    unfold Lexer.eat_while at h
    split at h
    · exact ih s.advance e h
    · cases h

/-- After a successful `eat_while` whose predicate fails on the sentinel,
the final position is the unchanged start position or lies inside the
input. -/
theorem eat_while_pos (f : Char → Bool) (hf : f EOF_CHAR = false)
    (n : Nat) (s s' : Lexer) (h : Lexer.eat_while f n s = .ok s') :
    s' = s ∨ (0 ≤ s'.position ∧ s'.position.toNat < s'.input.length) := by
  obtain ⟨_, _, h3, _⟩ := eat_while_ok f n s s' h
  rcases h3 with h3 | h3
  · exact Or.inl h3
  · exact Or.inr (slot_ne_eof s' s'.position (ne_eof_of_pred hf h3))

end JackLexer

namespace JackLexer

/-- An ASCII character occupies one UTF-8 byte. -/
theorem utf8Size_eq_one (c : Char) (h : c.toNat < 128) : c.utf8Size = 1 := by
  unfold Char.utf8Size
  rw [if_pos]
  rw [UInt32.le_def, BitVec.le_def]
  exact Nat.le_of_lt_succ h

/-- On a list of one-byte characters, dropping bytes is dropping
characters. -/
theorem dropBytes_ascii :
    ∀ (cs : List Char) (a : Nat), (∀ c ∈ cs, c.utf8Size = 1) → a ≤ cs.length →
      dropBytes cs a = some (cs.drop a) := by
  intro cs
  induction cs with
  | nil =>
    intro a _ ha
    have : a = 0 := by simpa using ha
    subst this
    rfl
  | cons c cs ih =>
    intro a h ha
    match a with
    | 0 => rfl
    | a + 1 =>
      show (if c.utf8Size ≤ a + 1 then dropBytes cs (a + 1 - c.utf8Size) else none) = _
      rw [h c (by simp)]
      rw [if_pos (by omega)]
      rw [show a + 1 - 1 = a from rfl]
      rw [ih a (fun x hx => h x (List.mem_cons_of_mem _ hx)) (by simpa using ha)]
      rfl

/-- On a list of one-byte characters, taking bytes is taking
characters. -/
theorem takeBytes_ascii :
    ∀ (cs : List Char) (a : Nat), (∀ c ∈ cs, c.utf8Size = 1) → a ≤ cs.length →
      takeBytes cs a = some (cs.take a) := by
  intro cs
  induction cs with
  | nil =>
    intro a _ ha
    have : a = 0 := by simpa using ha
    subst this
    rfl
  | cons c cs ih =>
    intro a h ha
    match a with
    | 0 => rfl
    | a + 1 =>
      show (if c.utf8Size ≤ a + 1
          then (takeBytes cs (a + 1 - c.utf8Size)).map (fun r => c :: r) else none) = _
      rw [h c (by simp)]
      rw [if_pos (by omega)]
      rw [show a + 1 - 1 = a from rfl]
      rw [ih a (fun x hx => h x (List.mem_cons_of_mem _ hx)) (by simpa using ha)]
      rfl

/-- On ASCII text a byte-range slice succeeds and returns the characters
at the same character range: byte indices and character positions
coincide. -/
theorem sliceBytes_ascii (cs : List Char) (a b : Nat)
    (h : allAscii cs = true) (hab : a ≤ b) (hb : b ≤ cs.length) :
    sliceBytes cs a b = some (sliceChars cs a b) := by
  have h1 : ∀ c ∈ cs, c.utf8Size = 1 := by
    intro c hc
    exact utf8Size_eq_one c (by simpa using (List.all_eq_true.mp h c hc))
  unfold sliceBytes sliceChars
  rw [if_pos hab, dropBytes_ascii cs a h1 (by omega)]
  show takeBytes (cs.drop a) (b - a) = _
  rw [takeBytes_ascii (cs.drop a) (b - a)
    (fun x hx => h1 x (List.mem_of_mem_drop hx)) (by simp [List.length_drop]; omega)]

/-- On ASCII text the UTF-8 byte length equals the character count. -/
theorem charsUtf8Len_ascii (cs : List Char) (h : allAscii cs = true) :
    charsUtf8Len cs = cs.length := by
  unfold charsUtf8Len
  induction cs with
  | nil => rfl
  | cons c cs ih =>
    have hc : c.utf8Size = 1 :=
      utf8Size_eq_one c (by simpa using (List.all_eq_true.mp h c (by simp)))
    have ih2 := ih (by
      apply List.all_eq_true.mpr
      intro x hx
      exact List.all_eq_true.mp h x (List.mem_cons_of_mem _ hx))
    simp [hc] at ih2 ⊢
    omega

/-- Adjacent character slices concatenate. -/
theorem sliceChars_append (cs : List Char) (a b c : Nat)
    (hab : a ≤ b) (hbc : b ≤ c) :
    sliceChars cs a b ++ sliceChars cs b c = sliceChars cs a c := by
  unfold sliceChars
  have hd : cs.drop b = (cs.drop a).drop (b - a) := by
    rw [List.drop_drop]
    congr 1
    omega
  rw [hd, ← List.take_add]
  congr 1
  omega

/-- A one-character slice at an in-range position is that character. -/
theorem sliceChars_singleton :
    ∀ (cs : List Char) (k : Nat), k < cs.length →
      sliceChars cs k (k + 1) = [cs.getD k EOF_CHAR] := by
  intro cs
  induction cs with
  | nil => intro k hk; simp at hk
  | cons c cs ih =>
    intro k hk
    match k with
    | 0 => rfl
    | k + 1 =>
      have h2 := ih k (by simpa using hk)
      unfold sliceChars at h2 ⊢
      rw [show ((c :: cs).drop (k + 1)) = cs.drop k from rfl]
      rw [show k + 1 + 1 - (k + 1) = k + 1 - k from by omega]
      rw [show ((c :: cs).getD (k + 1) EOF_CHAR) = cs.getD k EOF_CHAR from rfl]
      exact h2

end JackLexer

namespace JackLexer

/-- What a successful trivia loop guarantees: input unchanged, position
moved only forward, and a position that started inside (or just past) the
input stays at most just past it: the whitespace run stops before the
sentinel and the comment run stops before a real newline. -/
theorem trivia_ok :
    ∀ (n : Nat) (s s' : Lexer), Lexer.eat_whitespace_and_comments n s = .ok s' →
      s'.input = s.input ∧ s.position ≤ s'.position ∧
      (s.position ≤ (s.input.length : Int) → s'.position ≤ (s.input.length : Int)) := by
  intro n
  induction n with
  | zero =>
    intro s s' h
    exact Except.noConfusion h
  | succ n ih =>
    intro s s' h
    unfold Lexer.eat_whitespace_and_comments at h
    split at h
    · next hw =>
      cases he : s.eat_while rustIsWhitespace n with
      | error e => rw [he, ebind_error] at h; exact Except.noConfusion h
      | ok t =>
        rw [he, ebind_ok] at h
        obtain ⟨h1, h2, h3, _⟩ := eat_while_ok _ n s t he
        obtain ⟨g1, g2, g3⟩ := ih t.advance s' h
        have hadv1 : t.advance.input = t.input := rfl
        have hadv2 : t.advance.position = t.position + 1 := rfl
        have hinr : 0 ≤ t.position ∧ t.position.toNat < t.input.length := by
          rcases h3 with h3 | h3
          · rw [h3]
            exact slot_ne_eof s s.position (ne_eof_of_pred rustIsWhitespace_eof hw)
          · exact slot_ne_eof t t.position (ne_eof_of_pred rustIsWhitespace_eof h3)
        have hlen : t.input.length = s.input.length := by rw [h1]
        refine ⟨by rw [g1, hadv1, h1], by omega, ?_⟩
        intro _
        have hg3 := g3 (by rw [hadv1, hadv2, hlen]; omega)
        rw [hadv1, hlen] at hg3
        exact hg3
    · split at h
      · next hc =>
        cases he : s.eat_while (fun c => !(c = '\n')) n with
        | error e => rw [he, ebind_error] at h; exact Except.noConfusion h
        | ok t =>
          rw [he, ebind_ok] at h
          obtain ⟨h1, h2, _, h4⟩ := eat_while_ok _ n s t he
          obtain ⟨g1, g2, g3⟩ := ih t.advance s' h
          have hadv1 : t.advance.input = t.input := rfl
          have hadv2 : t.advance.position = t.position + 1 := rfl
          have hfa : t.slot (t.position + 1) = '\n' := by
            have hx : t.first_ahead = '\n' := by simpa using h4
            exact hx
          have hinr : 0 ≤ t.position + 1 ∧ (t.position + 1).toNat < t.input.length := by
            apply slot_ne_eof
            rw [hfa]
            decide
          have hlen : t.input.length = s.input.length := by rw [h1]
          refine ⟨by rw [g1, hadv1, h1], by omega, ?_⟩
          intro _
          have hg3 := g3 (by rw [hadv1, hadv2, hlen]; omega)
          rw [hadv1, hlen] at hg3
          exact hg3
      · cases h
        exact ⟨rfl, le_refl _, fun hb => hb⟩

/-- The trivia loop can only fail by running out of fuel. -/
theorem trivia_error :
    ∀ (n : Nat) (s : Lexer) (e : LexErr),
      Lexer.eat_whitespace_and_comments n s = .error e → e = .fuelOut := by
  intro n
  induction n with
  | zero =>
    intro s e h
    cases h
    rfl
  | succ n ih =>
    intro s e h
    unfold Lexer.eat_whitespace_and_comments at h
    split at h
    · cases he : s.eat_while rustIsWhitespace n with
      | error e2 =>
        rw [he, ebind_error] at h
        cases h
        exact eat_while_error _ n s e he
      | ok t =>
        rw [he, ebind_ok] at h
        exact ih t.advance e h
    · split at h
      · cases he : s.eat_while (fun c => !(c = '\n')) n with
        | error e2 =>
          rw [he, ebind_error] at h
          cases h
          exact eat_while_error _ n s e he
        | ok t =>
          rw [he, ebind_ok] at h
          exact ih t.advance e h
      · exact Except.noConfusion h

end JackLexer

namespace JackLexer

/-- A successful `eat_while` starting inside the input ends inside the
input, provided the predicate fails on the sentinel. -/
theorem eat_while_pos_of_in (f : Char → Bool) (hf : f EOF_CHAR = false)
    (n : Nat) (s s' : Lexer) (h : Lexer.eat_while f n s = .ok s')
    (hs : 0 ≤ s.position ∧ s.position.toNat < s.input.length) :
    0 ≤ s'.position ∧ s'.position.toNat < s'.input.length := by
  rcases eat_while_pos f hf n s s' h with h2 | h2
  · rw [h2]; exact hs
  · exact h2

/-- The exponent step preserves the input, moves the position only
forward, and ends inside the input when it started inside it. -/
theorem read_float_exp_post (s : Lexer)
    (hs : 0 ≤ s.position ∧ s.position.toNat < s.input.length) :
    s.read_float_exp.2.input = s.input ∧ s.position ≤ s.read_float_exp.2.position ∧
    0 ≤ s.read_float_exp.2.position ∧
    s.read_float_exp.2.position.toNat < s.read_float_exp.2.input.length := by
  unfold Lexer.read_float_exp
  simp only []
  split
  · next hcond =>
    have h1 : 0 ≤ s.position + 1 ∧ (s.position + 1).toNat < s.input.length := by
      apply slot_ne_eof
      rcases hcond with hc | hc <;>
        (rw [show s.first_ahead = s.slot (s.position + 1) from rfl] at hc;
         rw [hc]; decide)
    split
    · next hsign =>
      have h2 : 0 ≤ s.position + 1 + 1 ∧ (s.position + 1 + 1).toNat < s.input.length := by
        apply slot_ne_eof
        rcases hsign with hc | hc <;>
          (rw [show s.advance.first_ahead = s.slot (s.position + 1 + 1) from rfl] at hc;
           rw [hc]; decide)
      refine ⟨rfl, ?_, ?_, ?_⟩
      · show s.position ≤ s.position + 1 + 1
        omega
      · show 0 ≤ s.position + 1 + 1
        omega
      · show (s.position + 1 + 1).toNat < s.input.length
        omega
    · next hsign =>
      refine ⟨rfl, ?_, ?_, ?_⟩
      · show s.position ≤ s.position + 1
        omega
      · show 0 ≤ s.position + 1
        omega
      · show (s.position + 1).toNat < s.input.length
        omega
  · exact ⟨rfl, le_refl _, hs.1, hs.2⟩

/-- What a successful `read_float` guarantees, under its entry condition
(it is only called when `second_ahead` passes the digit-run test): input
unchanged, the two unconditional advances happened, and the final
position is inside the input. -/
theorem read_float_post (n : Nat) (s0 : Lexer) (tk : TokenKind) (s' : Lexer)
    (hsa : is_digit s0.second_ahead = true)
    (h : s0.read_float n = .ok (tk, s')) :
    s'.input = s0.input ∧ s0.position + 2 ≤ s'.position ∧
    0 ≤ s'.position ∧ s'.position.toNat < s'.input.length := by
  have hin : 0 ≤ s0.position + 2 ∧ (s0.position + 2).toNat < s0.input.length :=
    slot_ne_eof s0 _ (ne_eof_of_pred is_digit_eof hsa)
  have hAA : s0.advance.advance.position = s0.position + 1 + 1 := rfl
  have hAAi : s0.advance.advance.input = s0.input := rfl
  have hinAA : 0 ≤ s0.advance.advance.position ∧
      s0.advance.advance.position.toNat < s0.advance.advance.input.length := by
    rw [hAA, hAAi]
    omega
  unfold Lexer.read_float at h
  simp only [] at h
  split at h
  · split at h
    · cases he : Lexer.eat_while rustIsAlphanumeric n s0.advance.advance with
      | error e => rw [he, ebind_error] at h; exact Except.noConfusion h
      | ok t =>
        rw [he, ebind_ok] at h
        cases h
        obtain ⟨h1, h2, _, _⟩ := eat_while_ok _ n _ _ he
        have h3 := eat_while_pos_of_in _ rustIsAlphanumeric_eof n _ _ he hinAA
        refine ⟨by rw [h1]; rfl, by omega, h3.1, h3.2⟩
    · cases h
      refine ⟨rfl, by rw [hAA]; omega, by rw [hAA]; omega, ?_⟩
      rw [hAA, hAAi]
      omega
  · cases he : Lexer.eat_while is_digit n s0.advance.advance with
    | error e => rw [he, ebind_error] at h; exact Except.noConfusion h
    | ok s1 =>
      rw [he, ebind_ok] at h
      obtain ⟨h1, h2, _, _⟩ := eat_while_ok _ n _ s1 he
      have h3 := eat_while_pos_of_in _ is_digit_eof n _ s1 he hinAA
      obtain ⟨e1, e2, e3, e4⟩ := read_float_exp_post s1 h3
      cases hf : Lexer.eat_while is_digit n s1.read_float_exp.2 with
      | error e => rw [hf, ebind_error] at h; exact Except.noConfusion h
      | ok s2 =>
        rw [hf, ebind_ok] at h
        obtain ⟨f1, f2, _, _⟩ := eat_while_ok _ n _ s2 hf
        have f3 := eat_while_pos_of_in _ is_digit_eof n _ s2 hf ⟨e3, e4⟩
        have hcc : s2.input = s0.input ∧ s0.position + 2 ≤ s2.position ∧
            0 ≤ s2.position ∧ s2.position.toNat < s2.input.length := by
          refine ⟨by rw [f1, e1, h1]; rfl, by omega, f3.1, f3.2⟩
        split at h
        · cases h
          exact hcc
        · split at h
          · cases h
            exact hcc
          · cases h
            exact hcc

/-- `read_float` can only fail by running out of fuel. -/
theorem read_float_error (n : Nat) (s0 : Lexer) (e : LexErr)
    (h : s0.read_float n = .error e) : e = .fuelOut := by
  unfold Lexer.read_float at h
  simp only [] at h
  split at h
  · split at h
    · cases he : Lexer.eat_while rustIsAlphanumeric n s0.advance.advance with
      | error e2 =>
        rw [he, ebind_error] at h
        cases h
        exact eat_while_error _ n _ e he
      | ok t =>
        rw [he, ebind_ok] at h
        exact Except.noConfusion h
    · exact Except.noConfusion h
  · cases he : Lexer.eat_while is_digit n s0.advance.advance with
    | error e2 =>
      rw [he, ebind_error] at h
      cases h
      exact eat_while_error _ n _ e he
    | ok s1 =>
      rw [he, ebind_ok] at h
      cases hf : Lexer.eat_while is_digit n s1.read_float_exp.2 with
      | error e2 =>
        rw [hf, ebind_error] at h
        cases h
        exact eat_while_error _ n _ e hf
      | ok s2 =>
        rw [hf, ebind_ok] at h
        split at h
        · exact Except.noConfusion h
        · split at h <;> exact Except.noConfusion h

end JackLexer

namespace JackLexer

/-- The ASCII-digit predicate fails on the sentinel. -/
theorem rustIsAsciiDigit_eof : rustIsAsciiDigit EOF_CHAR = false := rfl

/-- `pure` in the `Except` monad is success. -/
theorem epure {α : Type} (a : α) : (pure a : Except LexErr α) = .ok a := rfl

/-- Full case analysis of `read_number` on ASCII input, under its entry
condition (`current` is an ASCII digit): either it fails, and then never
with the slice panic (byte indices and character positions coincide on
ASCII input, so the slice is in bounds and on boundaries), or it returns
a token whose span is exactly the character range from the entry position
through the final position, with the final position inside the input. -/
theorem read_number_cases (n : Nat) (s0 : Lexer)
    (hcur : rustIsAsciiDigit s0.current = true)
    (hascii : allAscii s0.input = true) :
    (∃ e, s0.read_number n = .error e ∧ e ≠ .panicSlice) ∨
    (∃ tok s', s0.read_number n = .ok (tok, s') ∧
      s'.input = s0.input ∧ s0.position ≤ s'.position ∧ 0 ≤ s0.position ∧
      0 ≤ s'.position ∧ s'.position.toNat < s'.input.length ∧
      tok.chars = sliceChars s0.input s0.position.toNat (s'.position.toNat + 1) ∧
      tok.token_kind ≠ TokenKind.EOF) := by
  have hin0 : 0 ≤ s0.position ∧ s0.position.toNat < s0.input.length :=
    slot_ne_eof s0 _ (ne_eof_of_pred rustIsAsciiDigit_eof hcur)
  cases he : Lexer.eat_while is_digit n s0 with
  | error e =>
    left
    refine ⟨e, ?_, ?_⟩
    · unfold Lexer.read_number
      simp only []
      rw [he, ebind_error]
    · rw [eat_while_error _ n s0 e he]
      intro hx
      cases hx
  | ok s1 =>
    obtain ⟨h1, h2, _, _⟩ := eat_while_ok _ n s0 s1 he
    have h3 := eat_while_pos_of_in _ is_digit_eof n s0 s1 he hin0
    have hmain : s0.read_number n =
        (if s1.first_ahead = '.' ∧ is_digit s1.second_ahead = true
          then s1.read_float n >>= (fun tks =>
            match sliceBytes tks.2.input s0.get_pos
                (s0.get_pos + (tks.2.get_pos - s0.get_pos) + 1) with
            | none => .error .panicSlice
            | some chars =>
              match tks.1 with
              | TokenKind.Integer _ =>
                match rustParseU64 chars with
                | some v => .ok (⟨chars, TokenKind.Integer v⟩, tks.2)
                | none => .error .panicParse
              | TokenKind.Float _ =>
                match rustParseF64 chars with
                | some v => .ok (⟨chars, TokenKind.Float v⟩, tks.2)
                | none => .error .panicParse
              | TokenKind.Invalid => .ok (⟨chars, TokenKind.Invalid⟩, tks.2)
              | _ => .error .panicUnreachable)
          else pure (TokenKind.Integer 0, s1) >>= (fun tks =>
            match sliceBytes tks.2.input s0.get_pos
                (s0.get_pos + (tks.2.get_pos - s0.get_pos) + 1) with
            | none => .error .panicSlice
            | some chars =>
              match tks.1 with
              | TokenKind.Integer _ =>
                match rustParseU64 chars with
                | some v => .ok (⟨chars, TokenKind.Integer v⟩, tks.2)
                | none => .error .panicParse
              | TokenKind.Float _ =>
                match rustParseF64 chars with
                | some v => .ok (⟨chars, TokenKind.Float v⟩, tks.2)
                | none => .error .panicParse
              | TokenKind.Invalid => .ok (⟨chars, TokenKind.Invalid⟩, tks.2)
              | _ => .error .panicUnreachable)) := by
      unfold Lexer.read_number
      simp only []
      rw [he, ebind_ok]
    split at hmain
    · next hcond =>
      cases hrf : s1.read_float n with
      | error e =>
        left
        refine ⟨e, ?_, ?_⟩
        · rw [hmain, hrf, ebind_error]
        · rw [read_float_error n s1 e hrf]
          intro hx
          cases hx
      | ok tks =>
        obtain ⟨tkf, s2⟩ := tks
        obtain ⟨g1, g2, g3, g4⟩ := read_float_post n s1 tkf s2 hcond.2 hrf
        rw [hrf, ebind_ok] at hmain
        simp only [] at hmain
        have hab : s0.get_pos + (s2.get_pos - s0.get_pos) + 1 = s2.position.toNat + 1 := by
          show s0.position.toNat + (s2.position.toNat - s0.position.toNat) + 1 = _
          omega
        have hsl : sliceBytes s2.input s0.get_pos (s2.position.toNat + 1) =
            some (sliceChars s2.input s0.get_pos (s2.position.toNat + 1)) := by
          apply sliceBytes_ascii
          · rw [g1, h1]; exact hascii
          · show s0.position.toNat ≤ s2.position.toNat + 1
            omega
          · omega
        have hchars : sliceChars s2.input s0.get_pos (s2.position.toNat + 1) =
            sliceChars s0.input s0.position.toNat (s2.position.toNat + 1) := by
          rw [g1, h1]
          rfl
        rw [hab, hsl] at hmain
        simp only [] at hmain
        cases tkf
        case Integer v =>
          simp only [] at hmain
          cases hp : rustParseU64 (sliceChars s2.input s0.get_pos (s2.position.toNat + 1)) with
          | none =>
            left
            rw [hp] at hmain
            exact ⟨.panicParse, hmain, by intro hx; cases hx⟩
          | some v2 =>
            right
            rw [hp] at hmain
            exact ⟨⟨sliceChars s2.input s0.get_pos (s2.position.toNat + 1),
                TokenKind.Integer v2⟩, s2, hmain, by rw [g1, h1], by omega, hin0.1,
                g3, g4, by rw [hchars], fun hx => TokenKind.noConfusion hx⟩
        case Float v =>
          simp only [] at hmain
          cases hp : rustParseF64 (sliceChars s2.input s0.get_pos (s2.position.toNat + 1)) with
          | none =>
            left
            rw [hp] at hmain
            exact ⟨.panicParse, hmain, by intro hx; cases hx⟩
          | some v2 =>
            right
            rw [hp] at hmain
            exact ⟨⟨sliceChars s2.input s0.get_pos (s2.position.toNat + 1),
                TokenKind.Float v2⟩, s2, hmain, by rw [g1, h1], by omega, hin0.1,
                g3, g4, by rw [hchars], fun hx => TokenKind.noConfusion hx⟩
        case Invalid =>
          simp only [] at hmain
          right
          exact ⟨⟨sliceChars s2.input s0.get_pos (s2.position.toNat + 1),
              TokenKind.Invalid⟩, s2, hmain, by rw [g1, h1], by omega, hin0.1,
              g3, g4, by rw [hchars], fun hx => TokenKind.noConfusion hx⟩
        all_goals
          (left;
           refine ⟨.panicUnreachable, ?_, by intro hx; cases hx⟩;
           simp only [] at hmain;
           exact hmain)
    · rw [epure, ebind_ok] at hmain
      simp only [] at hmain
      have hab : s0.get_pos + (s1.get_pos - s0.get_pos) + 1 = s1.position.toNat + 1 := by
        show s0.position.toNat + (s1.position.toNat - s0.position.toNat) + 1 = _
        omega
      have hsl : sliceBytes s1.input s0.get_pos (s1.position.toNat + 1) =
          some (sliceChars s1.input s0.get_pos (s1.position.toNat + 1)) := by
        apply sliceBytes_ascii
        · rw [h1]; exact hascii
        · show s0.position.toNat ≤ s1.position.toNat + 1
          omega
        · omega
      have hchars : sliceChars s1.input s0.get_pos (s1.position.toNat + 1) =
          sliceChars s0.input s0.position.toNat (s1.position.toNat + 1) := by
        rw [h1]
        rfl
      rw [hab, hsl] at hmain
      simp only [] at hmain
      cases hp : rustParseU64 (sliceChars s1.input s0.get_pos (s1.position.toNat + 1)) with
      | none =>
        left
        rw [hp] at hmain
        exact ⟨.panicParse, hmain, by intro hx; cases hx⟩
      | some v2 =>
        right
        rw [hp] at hmain
        exact ⟨⟨sliceChars s1.input s0.get_pos (s1.position.toNat + 1),
            TokenKind.Integer v2⟩, s1, hmain, h1, h2, hin0.1,
            h3.1, h3.2, by rw [hchars], fun hx => TokenKind.noConfusion hx⟩

end JackLexer

namespace JackLexer

/-- An in-range slot is a list lookup. -/
theorem slot_eq_getD (s : Lexer) (i : Int) (h : 0 ≤ i) :
    s.slot i = s.input.getD i.toNat EOF_CHAR := by
  unfold Lexer.slot
  rw [if_neg (by omega)]

/-- A slot holding a known non-sentinel character is in range and is the
one-character slice at its position. -/
theorem slot_char_span (s : Lexer) (i : Int) (c : Char) (hc : s.slot i = c)
    (hne : c ≠ EOF_CHAR) (h0 : 0 ≤ i) :
    sliceChars s.input i.toNat (i.toNat + 1) = [c] ∧ i.toNat < s.input.length := by
  have hin := slot_ne_eof s i (by rw [hc]; exact hne)
  refine ⟨?_, hin.2⟩
  rw [sliceChars_singleton s.input i.toNat hin.2, ← slot_eq_getD s i h0, hc]

/-- When the trivia loop leaves the cursor on the sentinel character (end
of input or an embedded NUL), the recognizer returns the EndOfInput token
without moving. -/
theorem recognise_eof (n : Nat) (s : Lexer) (hc : s.current = EOF_CHAR) :
    s.recognise n = .ok (⟨[EOF_CHAR], TokenKind.EOF⟩, s) := by
  unfold Lexer.recognise
  simp only []
  rw [hc]
  rw [if_neg (by decide), if_neg (by decide), if_neg (by decide), if_neg (by decide),
      if_neg (by decide), if_neg (by decide), if_neg (by decide), if_neg (by decide),
      if_neg (by decide), if_neg (by decide), if_pos rfl]

end JackLexer

namespace JackLexer

/-- The payload of the non-moving single-character token arms of the
recognizer. -/
theorem fixed_payload (s : Lexer) (c : Char) (k : TokenKind)
    (hc : s.current = c) (hne : c ≠ EOF_CHAR) (hk : k ≠ TokenKind.EOF) :
    s.input = s.input ∧
    (k = TokenKind.EOF ∧ [c] = [EOF_CHAR] ∧ s = s ∧ s.current = EOF_CHAR ∨
     k ≠ TokenKind.EOF ∧ s.position ≤ s.position ∧ 0 ≤ s.position ∧
       s.position.toNat < s.input.length ∧
       [c] = sliceChars s.input s.position.toNat (s.position.toNat + 1)) := by
  have hin := slot_ne_eof s s.position (by
    rw [show s.current = s.slot s.position from rfl] at hc
    rw [hc]; exact hne)
  refine ⟨rfl, Or.inr ⟨hk, le_refl _, hin.1, hin.2, ?_⟩⟩
  exact (slot_char_span s s.position c hc hne hin.1).1.symm

/-- Full case analysis of one recognizer call on ASCII input: either it
fails, and never with the slice panic, or it returns a token; the
EndOfInput token does not move the cursor, and every other token ends at
an in-range position with its span equal to the character range it
covered. -/
theorem recognise_cases (n : Nat) (s : Lexer) (hascii : allAscii s.input = true) :
    (∃ e, s.recognise n = .error e ∧ e ≠ .panicSlice) ∨
    (∃ tok s2, s.recognise n = .ok (tok, s2) ∧ s2.input = s.input ∧
      (tok.token_kind = TokenKind.EOF ∧ tok.chars = [EOF_CHAR] ∧ s2 = s ∧
         s.current = EOF_CHAR ∨
       tok.token_kind ≠ TokenKind.EOF ∧ s.position ≤ s2.position ∧
         0 ≤ s2.position ∧ s2.position.toNat < s2.input.length ∧
         tok.chars = sliceChars s.input s.position.toNat (s2.position.toNat + 1))) := by
  by_cases h01 : s.current = '+'
  · right
    have heq : s.recognise n = .ok (⟨['+'], TokenKind.Plus⟩, s) := by
      unfold Lexer.recognise
      simp only []
      rw [if_pos h01]
    exact ⟨⟨['+'], TokenKind.Plus⟩, s, heq,
      fixed_payload s '+' TokenKind.Plus h01 (by decide) (fun hx => TokenKind.noConfusion hx)⟩
  by_cases h02 : s.current = '-'
  · right
    have heq : s.recognise n = .ok (⟨['-'], TokenKind.Minus⟩, s) := by
      unfold Lexer.recognise
      simp only []
      rw [if_neg h01, if_pos h02]
    exact ⟨⟨['-'], TokenKind.Minus⟩, s, heq,
      fixed_payload s '-' TokenKind.Minus h02 (by decide) (fun hx => TokenKind.noConfusion hx)⟩
  by_cases h03 : s.current = '/'
  · right
    have heq : s.recognise n = .ok (⟨['/'], TokenKind.Divide⟩, s) := by
      unfold Lexer.recognise
      simp only []
      rw [if_neg h01, if_neg h02, if_pos h03]
    exact ⟨⟨['/'], TokenKind.Divide⟩, s, heq,
      fixed_payload s '/' TokenKind.Divide h03 (by decide) (fun hx => TokenKind.noConfusion hx)⟩
  by_cases h04 : s.current = '*'
  · right
    have heq : s.recognise n = .ok (⟨['*'], TokenKind.Multiply⟩, s) := by
      unfold Lexer.recognise
      simp only []
      rw [if_neg h01, if_neg h02, if_neg h03, if_pos h04]
    exact ⟨⟨['*'], TokenKind.Multiply⟩, s, heq,
      fixed_payload s '*' TokenKind.Multiply h04 (by decide) (fun hx => TokenKind.noConfusion hx)⟩
  by_cases h05 : s.current = '='
  · right
    have heq : s.recognise n = .ok (⟨['='], TokenKind.Assign⟩, s) := by
      unfold Lexer.recognise
      simp only []
      rw [if_neg h01, if_neg h02, if_neg h03, if_neg h04, if_pos h05]
    exact ⟨⟨['='], TokenKind.Assign⟩, s, heq,
      fixed_payload s '=' TokenKind.Assign h05 (by decide) (fun hx => TokenKind.noConfusion hx)⟩
  by_cases h06 : s.current = ';'
  · right
    have heq : s.recognise n = .ok (⟨[';'], TokenKind.Semi⟩, s) := by
      unfold Lexer.recognise
      simp only []
      rw [if_neg h01, if_neg h02, if_neg h03, if_neg h04, if_neg h05, if_pos h06]
    exact ⟨⟨[';'], TokenKind.Semi⟩, s, heq,
      fixed_payload s ';' TokenKind.Semi h06 (by decide) (fun hx => TokenKind.noConfusion hx)⟩
  by_cases h07 : s.current = '('
  · right
    have heq : s.recognise n = .ok (⟨['('], TokenKind.LParen⟩, s) := by
      unfold Lexer.recognise
      simp only []
      rw [if_neg h01, if_neg h02, if_neg h03, if_neg h04, if_neg h05, if_neg h06, if_pos h07]
    exact ⟨⟨['('], TokenKind.LParen⟩, s, heq,
      fixed_payload s '(' TokenKind.LParen h07 (by decide) (fun hx => TokenKind.noConfusion hx)⟩
  by_cases h08 : s.current = ')'
  · right
    have heq : s.recognise n = .ok (⟨[')'], TokenKind.RParen⟩, s) := by
      unfold Lexer.recognise
      simp only []
      rw [if_neg h01, if_neg h02, if_neg h03, if_neg h04, if_neg h05, if_neg h06, if_neg h07, if_pos h08]
    exact ⟨⟨[')'], TokenKind.RParen⟩, s, heq,
      fixed_payload s ')' TokenKind.RParen h08 (by decide) (fun hx => TokenKind.noConfusion hx)⟩
  by_cases h09 : s.current = LBRACE
  · right
    have heq : s.recognise n = .ok (⟨[LBRACE], TokenKind.LCurly⟩, s) := by
      unfold Lexer.recognise
      simp only []
      rw [if_neg h01, if_neg h02, if_neg h03, if_neg h04, if_neg h05, if_neg h06, if_neg h07, if_neg h08, if_pos h09]
    exact ⟨⟨[LBRACE], TokenKind.LCurly⟩, s, heq,
      fixed_payload s LBRACE TokenKind.LCurly h09 (by decide) (fun hx => TokenKind.noConfusion hx)⟩
  by_cases h10 : s.current = RBRACE
  · right
    have heq : s.recognise n = .ok (⟨[RBRACE], TokenKind.RCurly⟩, s) := by
      unfold Lexer.recognise
      simp only []
      rw [if_neg h01, if_neg h02, if_neg h03, if_neg h04, if_neg h05, if_neg h06, if_neg h07, if_neg h08, if_neg h09, if_pos h10]
    exact ⟨⟨[RBRACE], TokenKind.RCurly⟩, s, heq,
      fixed_payload s RBRACE TokenKind.RCurly h10 (by decide) (fun hx => TokenKind.noConfusion hx)⟩
  by_cases h11 : s.current = EOF_CHAR
  · right
    have heq : s.recognise n = .ok (⟨[EOF_CHAR], TokenKind.EOF⟩, s) := by
      unfold Lexer.recognise
      simp only []
      rw [if_neg h01, if_neg h02, if_neg h03, if_neg h04, if_neg h05, if_neg h06, if_neg h07, if_neg h08, if_neg h09, if_neg h10, if_pos h11]
    exact ⟨⟨[EOF_CHAR], TokenKind.EOF⟩, s, heq, rfl, Or.inl ⟨rfl, rfl, rfl, h11⟩⟩
  by_cases h12 : s.current = '.'
  · have hin := slot_ne_eof s s.position (by
      rw [show s.current = s.slot s.position from rfl] at h12
      rw [h12]; decide)
    by_cases h12a : s.first_ahead = '.'
    · have hin1 := slot_ne_eof s (s.position + 1) (by
        rw [show s.first_ahead = s.slot (s.position + 1) from rfl] at h12a
        rw [h12a]; decide)
      by_cases h12b : s.advance.first_ahead = '='
      · have h12c : s.slot (s.position + 1 + 1) = '=' := h12b
        have hin2 := slot_ne_eof s (s.position + 1 + 1) (by rw [h12c]; decide)
        right
        have heq : s.recognise n =
            .ok (⟨['.', '.', '='], TokenKind.RangeEqual⟩, s.advance.advance) := by
          unfold Lexer.recognise
          simp only []
          rw [if_neg h01, if_neg h02, if_neg h03, if_neg h04, if_neg h05, if_neg h06, if_neg h07, if_neg h08, if_neg h09, if_neg h10, if_neg h11, if_pos h12, if_pos h12a, if_pos h12b]
        refine ⟨⟨['.', '.', '='], TokenKind.RangeEqual⟩, s.advance.advance, heq, rfl,
          Or.inr ⟨fun hx => TokenKind.noConfusion hx, ?_, ?_, ?_, ?_⟩⟩
        · show s.position ≤ s.position + 1 + 1
          omega
        · show 0 ≤ s.position + 1 + 1
          omega
        · show (s.position + 1 + 1).toNat < s.input.length
          omega
        · show ['.', '.', '='] =
            sliceChars s.input s.position.toNat ((s.position + 1 + 1).toNat + 1)
          have e0 := (slot_char_span s s.position '.' h12 (by decide) hin.1).1
          have e1 := (slot_char_span s (s.position + 1) '.' h12a (by decide) hin1.1).1
          have e2 := (slot_char_span s (s.position + 1 + 1) '=' h12c (by decide) hin2.1).1
          have k0 : (s.position + 1).toNat = s.position.toNat + 1 := by omega
          have k1 : (s.position + 1 + 1).toNat = s.position.toNat + 2 := by omega
          rw [k0] at e1
          rw [k1] at e2
          rw [k1]
          rw [← sliceChars_append s.input s.position.toNat (s.position.toNat + 1)
            (s.position.toNat + 2 + 1) (by omega) (by omega)]
          rw [← sliceChars_append s.input (s.position.toNat + 1) (s.position.toNat + 2)
            (s.position.toNat + 2 + 1) (by omega) (by omega)]
          rw [e0, e1]
          rw [show s.position.toNat + 2 + 1 = s.position.toNat + 2 + 1 from rfl, e2]
          rfl
      · right
        have heq : s.recognise n =
            .ok (⟨['.', '.'], TokenKind.RangeUntil⟩, s.advance) := by
          unfold Lexer.recognise
          simp only []
          rw [if_neg h01, if_neg h02, if_neg h03, if_neg h04, if_neg h05, if_neg h06, if_neg h07, if_neg h08, if_neg h09, if_neg h10, if_neg h11, if_pos h12, if_pos h12a, if_neg h12b]
        refine ⟨⟨['.', '.'], TokenKind.RangeUntil⟩, s.advance, heq, rfl,
          Or.inr ⟨fun hx => TokenKind.noConfusion hx, ?_, ?_, ?_, ?_⟩⟩
        · show s.position ≤ s.position + 1
          omega
        · show 0 ≤ s.position + 1
          omega
        · show (s.position + 1).toNat < s.input.length
          omega
        · show ['.', '.'] = sliceChars s.input s.position.toNat ((s.position + 1).toNat + 1)
          have e0 := (slot_char_span s s.position '.' h12 (by decide) hin.1).1
          have e1 := (slot_char_span s (s.position + 1) '.' h12a (by decide) hin1.1).1
          have k0 : (s.position + 1).toNat = s.position.toNat + 1 := by omega
          rw [k0] at e1
          rw [k0]
          rw [← sliceChars_append s.input s.position.toNat (s.position.toNat + 1)
            (s.position.toNat + 1 + 1) (by omega) (by omega)]
          rw [e0, e1]
          rfl
    · right
      have heq : s.recognise n = .ok (⟨['.'], TokenKind.Dereference⟩, s) := by
        unfold Lexer.recognise
        simp only []
        rw [if_neg h01, if_neg h02, if_neg h03, if_neg h04, if_neg h05, if_neg h06, if_neg h07, if_neg h08, if_neg h09, if_neg h10, if_neg h11, if_pos h12, if_neg h12a]
      exact ⟨⟨['.'], TokenKind.Dereference⟩, s, heq,
        fixed_payload s '.' TokenKind.Dereference h12 (by decide)
          (fun hx => TokenKind.noConfusion hx)⟩
  by_cases h13 : decide ('0' ≤ s.current ∧ s.current ≤ '9') = true
  · have heq : s.recognise n = s.read_number n := by
      unfold Lexer.recognise
      simp only []
      rw [if_neg h01, if_neg h02, if_neg h03, if_neg h04, if_neg h05, if_neg h06, if_neg h07, if_neg h08, if_neg h09, if_neg h10, if_neg h11, if_neg h12, if_pos h13]
    rcases read_number_cases n s h13 hascii with ⟨e, he, hne⟩ | ⟨tok, s2, he, p1, p2, _, p4, p5, p6, p7⟩
    · left
      exact ⟨e, heq.trans he, hne⟩
    · right
      exact ⟨tok, s2, heq.trans he, p1, Or.inr ⟨p7, p2, p4, p5, p6⟩⟩
  by_cases h14 : (decide ('a' ≤ s.current ∧ s.current ≤ 'z') ||
      decide ('A' ≤ s.current ∧ s.current ≤ 'Z') || decide (s.current = '_')) = true
  · have hne : s.slot s.position ≠ EOF_CHAR := by
      intro hx
      rw [show s.slot s.position = s.current from rfl] at hx
      rw [hx] at h14
      exact absurd h14 (by decide)
    have hin := slot_ne_eof s s.position hne
    have heq : s.recognise n = (Lexer.eat_while is_continuing_alpha n s >>= fun t =>
        match sliceBytes t.input s.get_pos (t.get_pos + 1) with
        | none => .error .panicSlice
        | some chars =>
          match keyWordsGet chars with
          | none => .ok (⟨chars, TokenKind.Ident⟩, t)
          | some keyword => .ok (⟨chars, TokenKind.Keyword keyword⟩, t)) := by
      unfold Lexer.recognise
      simp only []
      rw [if_neg h01, if_neg h02, if_neg h03, if_neg h04, if_neg h05, if_neg h06, if_neg h07, if_neg h08, if_neg h09, if_neg h10, if_neg h11, if_neg h12, if_neg h13, if_pos h14]
    cases hew : Lexer.eat_while is_continuing_alpha n s with
    | error e =>
      left
      refine ⟨e, by rw [heq, hew, ebind_error], ?_⟩
      rw [eat_while_error _ n s e hew]
      intro hx
      cases hx
    | ok t =>
      obtain ⟨t1, t2, _, _⟩ := eat_while_ok _ n s t hew
      have t3 := eat_while_pos_of_in _ is_continuing_alpha_eof n s t hew hin
      have hsl : sliceBytes t.input s.get_pos (t.get_pos + 1) =
          some (sliceChars t.input s.get_pos (t.get_pos + 1)) := by
        apply sliceBytes_ascii
        · rw [t1]; exact hascii
        · show s.position.toNat ≤ t.position.toNat + 1
          omega
        · show t.position.toNat + 1 ≤ t.input.length
          omega
      have heq2 : s.recognise n =
          (match keyWordsGet (sliceChars t.input s.get_pos (t.get_pos + 1)) with
           | none => .ok (⟨sliceChars t.input s.get_pos (t.get_pos + 1),
               TokenKind.Ident⟩, t)
           | some keyword => .ok (⟨sliceChars t.input s.get_pos (t.get_pos + 1),
               TokenKind.Keyword keyword⟩, t)) := by
        rw [heq, hew, ebind_ok]
        rw [hsl]
      have hspan : sliceChars t.input s.get_pos (t.get_pos + 1) =
          sliceChars s.input s.position.toNat (t.position.toNat + 1) := by
        rw [t1]
        rfl
      cases hkw : keyWordsGet (sliceChars t.input s.get_pos (t.get_pos + 1)) with
      | none =>
        right
        rw [hkw] at heq2
        exact ⟨⟨sliceChars t.input s.get_pos (t.get_pos + 1), TokenKind.Ident⟩, t,
          heq2, t1, Or.inr ⟨fun hx => TokenKind.noConfusion hx, t2, t3.1, t3.2, hspan⟩⟩
      | some keyword =>
        right
        rw [hkw] at heq2
        exact ⟨⟨sliceChars t.input s.get_pos (t.get_pos + 1), TokenKind.Keyword keyword⟩, t,
          heq2, t1, Or.inr ⟨fun hx => TokenKind.noConfusion hx, t2, t3.1, t3.2, hspan⟩⟩
  · have hne : s.slot s.position ≠ EOF_CHAR := fun hx => h11 hx
    have hin := slot_ne_eof s s.position hne
    have hsl : sliceBytes s.input s.get_pos (s.get_pos + 1) =
        some (sliceChars s.input s.get_pos (s.get_pos + 1)) := by
      apply sliceBytes_ascii s.input _ _ hascii
      · show s.position.toNat ≤ s.position.toNat + 1
        omega
      · show s.position.toNat + 1 ≤ s.input.length
        omega
    right
    have heq : s.recognise n = .ok (⟨sliceChars s.input s.get_pos (s.get_pos + 1),
        TokenKind.Invalid⟩, s) := by
      unfold Lexer.recognise
      simp only []
      rw [if_neg h01, if_neg h02, if_neg h03, if_neg h04, if_neg h05, if_neg h06, if_neg h07, if_neg h08, if_neg h09, if_neg h10, if_neg h11, if_neg h12, if_neg h13, if_neg h14, hsl]
    exact ⟨⟨sliceChars s.input s.get_pos (s.get_pos + 1), TokenKind.Invalid⟩, s, heq, rfl,
      Or.inr ⟨fun hx => TokenKind.noConfusion hx, le_refl _, hin.1, hin.2, rfl⟩⟩

end JackLexer

namespace JackLexer

/-- Full case analysis of one `next_token` call on ASCII input, from a
state whose position is at least -1 and whose successor position does not
exceed the input length: either the call fails, and never with the slice
panic, or it yields a token together with the trivia it skipped; an
EndOfInput token leaves the cursor where the trivia loop stopped (at most
just past the input, on a sentinel), and any other token ends in range,
with the trivia and span concatenating to exactly the characters passed
over. -/
theorem next_token_cases (n : Nat) (s0 : Lexer)
    (hascii : allAscii s0.input = true)
    (hlen : s0.position + 1 ≤ (s0.input.length : Int)) :
    (∃ e, s0.next_token n = .error e ∧ e ≠ .panicSlice) ∨
    (∃ trivia tok s', s0.next_token n = .ok (trivia, tok, s') ∧
      s'.input = s0.input ∧ s0.position < s'.position ∧
      (tok.token_kind = TokenKind.EOF ∧
         s'.position ≤ (s0.input.length : Int) ∧ s'.current = EOF_CHAR ∧
         trivia = sliceChars s0.input (s0.position + 1).toNat s'.position.toNat ∨
       tok.token_kind ≠ TokenKind.EOF ∧ 0 ≤ s'.position ∧
         s'.position.toNat < s0.input.length ∧
         trivia ++ tok.chars =
           sliceChars s0.input (s0.position + 1).toNat (s'.position.toNat + 1))) := by
  have hadv1 : s0.advance.input = s0.input := rfl
  have hadv2 : s0.advance.position = s0.position + 1 := rfl
  cases htr : Lexer.eat_whitespace_and_comments n s0.advance with
  | error e =>
    left
    refine ⟨e, ?_, ?_⟩
    · show (s0.advance.eat_whitespace_and_comments n >>= _) = _
      rw [htr, ebind_error]
    · rw [trivia_error n s0.advance e htr]
      intro hx
      cases hx
  | ok s1 =>
    obtain ⟨q1, q2, q3⟩ := trivia_ok n s0.advance s1 htr
    have hq3 : s1.position ≤ (s0.input.length : Int) := by
      rw [← hadv1]
      exact q3 (by rw [hadv1, hadv2]; omega)
    have hs1a : allAscii s1.input = true := by
      rw [q1, hadv1]
      exact hascii
    have heqNT : s0.next_token n = (s1.recognise n >>= fun r =>
        .ok ((s0.input.drop s0.advance.get_pos).take (s1.get_pos - s0.advance.get_pos),
          r.1, r.2)) := by
      show (s0.advance.eat_whitespace_and_comments n >>= _) = _
      rw [htr, ebind_ok]
    have htriv : (s0.input.drop s0.advance.get_pos).take (s1.get_pos - s0.advance.get_pos) =
        sliceChars s0.input (s0.position + 1).toNat s1.position.toNat := rfl
    rcases recognise_cases n s1 hs1a with ⟨e, he, hne⟩ | ⟨tok, s2, he, p1, payload⟩
    · left
      refine ⟨e, ?_, hne⟩
      rw [heqNT, he, ebind_error]
    · right
      refine ⟨_, tok, s2, by rw [heqNT, he, ebind_ok], by rw [p1, q1, hadv1], ?_, ?_⟩
      · rcases payload with ⟨_, _, hs2, _⟩ | ⟨_, hle, _, _, _⟩
        · rw [hs2]
          omega
        · omega
      · rcases payload with ⟨hk, hch, hs2, hcur⟩ | ⟨hk, hle, h0, hlt, hspan⟩
        · left
          refine ⟨hk, ?_, ?_, ?_⟩
          · rw [hs2]
            exact hq3
          · rw [hs2]
            exact hcur
          · rw [hs2]
            exact htriv
        · right
          refine ⟨hk, h0, ?_, ?_⟩
          · have : s2.input.length = s0.input.length := by rw [p1, q1, hadv1]
            omega
          · rw [htriv, hspan]
            have hsp : sliceChars s1.input s1.position.toNat (s2.position.toNat + 1) =
                sliceChars s0.input s1.position.toNat (s2.position.toNat + 1) := by
              rw [q1, hadv1]
            rw [hsp]
            apply sliceChars_append
            · omega
            · omega

end JackLexer

namespace JackLexer

/-- Chaining `next_token` calls: from any well-placed state, the pull
loop on ASCII input either fails - never with the slice panic - or runs
to the EndOfInput sentinel, and the concatenation of all skipped trivia
runs and token spans is exactly the slice of the input it passed over. -/
theorem tokeniseAux_cases :
    ∀ (fuel : Nat) (s : Lexer), allAscii s.input = true →
      s.position + 1 ≤ (s.input.length : Int) →
      ((∃ e, tokeniseAux fuel s = .error e ∧ e ≠ .panicSlice) ∨
       (∃ pairs fin sEnd, tokeniseAux fuel s = .ok (pairs, fin, sEnd) ∧
         sEnd.input = s.input ∧ s.position < sEnd.position ∧
         sEnd.position ≤ (s.input.length : Int) ∧ sEnd.current = EOF_CHAR ∧
         (pairs.map (fun p => p.1 ++ p.2.chars)).flatten ++ fin =
           sliceChars s.input (s.position + 1).toNat sEnd.position.toNat)) := by
  intro fuel
  induction fuel with
  | zero =>
    intro s _ _
    left
    exact ⟨.fuelOut, rfl, by intro hx; cases hx⟩
  | succ n ih =>
    intro s hascii hlen
    rcases next_token_cases n s hascii hlen with ⟨e, he, hne⟩ |
      ⟨trivia, tok, s', he, p1, p2, payload⟩
    · left
      refine ⟨e, ?_, hne⟩
      show (s.next_token n >>= _) = _
      rw [he, ebind_error]
    · have heqA : tokeniseAux (n + 1) s =
          (if tok.token_kind = TokenKind.EOF then .ok ([], trivia, s')
           else tokeniseAux n s' >>= fun rest =>
             .ok ((trivia, tok) :: rest.1, rest.2.1, rest.2.2)) := by
        show (s.next_token n >>= _) = _
        rw [he, ebind_ok]
      rcases payload with ⟨hk, hle, hcur, htriv⟩ | ⟨hk, h0, hlt, hspan⟩
      · right
        rw [if_pos hk] at heqA
        exact ⟨[], trivia, s', heqA, p1, p2, hle, hcur, by simpa using htriv⟩
      · rw [if_neg hk] at heqA
        have hlen2 : s'.position + 1 ≤ (s'.input.length : Int) := by
          have : s'.input.length = s.input.length := by rw [p1]
          omega
        rcases ih s' (by rw [p1]; exact hascii) hlen2 with ⟨e, hee, hne⟩ |
          ⟨pairs, fin, sEnd, hee, r1, r2, r3, r4, r5⟩
        · left
          refine ⟨e, ?_, hne⟩
          rw [heqA, hee, ebind_error]
        · right
          refine ⟨(trivia, tok) :: pairs, fin, sEnd, by rw [heqA, hee, ebind_ok],
            by rw [r1, p1], by omega, ?_, r4, ?_⟩
          · have : s'.input.length = s.input.length := by rw [p1]
            omega
          · rw [List.map_cons, List.flatten_cons, List.append_assoc]
            rw [hspan, r5]
            have hr : sliceChars s'.input (s'.position + 1).toNat sEnd.position.toNat =
                sliceChars s.input (s'.position.toNat + 1) sEnd.position.toNat := by
              rw [p1, show (s'.position + 1).toNat = s'.position.toNat + 1 from by omega]
            rw [hr]
            apply sliceChars_append
            · omega
            · omega

end JackLexer

namespace JackLexer

/-- `Except.map` on a success. -/
theorem emap_ok {α β : Type} (a : α) (f : α → β) :
    (Except.ok a : Except LexErr α).map f = .ok (f a) := rfl

/-- `Except.map` on an error. -/
theorem emap_error {α β : Type} (e : LexErr) (f : α → β) :
    (Except.error e : Except LexErr α).map f = .error e := rfl

/-- C10: token spans are byte slices indexed by the character-position
counter.  On ASCII input the two coincide - the byte length of any ASCII
text equals its character count, and no run of the lexer, for any fuel,
can hit the slice panic - while on the single-character non-ASCII input
consisting of LATIN SMALL LETTER E WITH ACUTE the one-byte slice of the
Invalid arm falls inside the two-byte character and the slice panics. -/
theorem c10_spans :
    (∀ cs : List Char, allAscii cs = true → charsUtf8Len cs = cs.length) ∧
    (∀ (input : List Char) (fuel : Nat), allAscii input = true →
      tokenise input fuel ≠ .error .panicSlice) ∧
    tokenise "é".toList 4 = .error .panicSlice := by
  refine ⟨charsUtf8Len_ascii, ?_, by rfl⟩
  intro input fuel ha hcontra
  have hini : (mkLexer input).position + 1 ≤ ((mkLexer input).input.length : Int) := by
    show (-1 : Int) + 1 ≤ (input.length : Int)
    omega
  rcases tokeniseAux_cases fuel (mkLexer input) ha hini with ⟨e, he, hne⟩ |
    ⟨pairs, fin, sEnd, he, _⟩
  · unfold tokenise at hcontra
    rw [he, emap_error] at hcontra
    cases hcontra
    exact hne rfl
  · unfold tokenise at hcontra
    rw [he, emap_ok] at hcontra
    exact Except.noConfusion hcontra

/-- Witness for C10 at concrete inputs. -/
theorem c10_spans_witness :
    charsUtf8Len "ab".toList = "ab".toList.length ∧
    tokenise "1 + 2".toList 32 ≠ .error .panicSlice ∧
    tokenise "é".toList 4 = .error .panicSlice :=
  ⟨c10_spans.1 "ab".toList (by decide), c10_spans.2.1 "1 + 2".toList 32 (by decide),
   c10_spans.2.2⟩

/-- C4 amended: for every input of non-NUL ASCII characters, whenever the
token stream runs to completion, concatenating the trivia runs and the
token spans in order (with the final trivia run before end of input)
reconstructs the input exactly. -/
theorem c4_amended_span_coverage (input : List Char) (fuel : Nat)
    (r : List (List Char × Token) × List Char)
    (ha : asciiNoNul input = true)
    (hok : tokenise input fuel = .ok r) :
    reassemble r = input := by
  have ha2 : allAscii input = true := by
    apply List.all_eq_true.mpr
    intro x hx
    have hx2 := List.all_eq_true.mp ha x hx
    exact decide_eq_true (of_decide_eq_true hx2).2
  have hini : (mkLexer input).position + 1 ≤ ((mkLexer input).input.length : Int) := by
    show (-1 : Int) + 1 ≤ (input.length : Int)
    omega
  rcases tokeniseAux_cases fuel (mkLexer input) ha2 hini with ⟨e, he, _⟩ |
    ⟨pairs, fin, sEnd, he, r1, r2, r3, r4, r5⟩
  · unfold tokenise at hok
    rw [he, emap_error] at hok
    exact Except.noConfusion hok
  · unfold tokenise at hok
    rw [he, emap_ok] at hok
    cases hok
    have hmkpos : (mkLexer input).position = -1 := rfl
    have hmkl : (mkLexer input).input.length = input.length := rfl
    have h0 : 0 ≤ sEnd.position := by omega
    have hlen3 : sEnd.input.length = input.length := by
      rw [r1]
      exact hmkl
    have hnotlt : ¬(sEnd.position.toNat < input.length) := by
      intro hb
      have hgd : sEnd.slot sEnd.position = sEnd.input.getD sEnd.position.toNat EOF_CHAR :=
        slot_eq_getD sEnd _ h0
    
      have hbin : sEnd.position.toNat < sEnd.input.length := by omega
      have hmem : sEnd.input.getD sEnd.position.toNat EOF_CHAR ∈ sEnd.input := by
        rw [List.getD_eq_getElem sEnd.input EOF_CHAR hbin]
        exact List.getElem_mem hbin
      have hmem2 : sEnd.input.getD sEnd.position.toNat EOF_CHAR ∈ input := by
        rw [← show (mkLexer input).input = input from rfl, ← r1]
        exact hmem
      have := of_decide_eq_true (List.all_eq_true.mp ha _ hmem2)
      rw [show sEnd.current = sEnd.slot sEnd.position from rfl, hgd] at r4
      rw [r4] at this
      exact absurd this.1 (by decide)
    have hend : sEnd.position.toNat = input.length := by omega
    unfold reassemble
    rw [show ((pairs, fin) : List (List Char × Token) × List Char).1 = pairs from rfl,
        show ((pairs, fin) : List (List Char × Token) × List Char).2 = fin from rfl]
    rw [r5]
    rw [show ((mkLexer input).position + 1).toNat = 0 from rfl, hend]
    show ((mkLexer input).input.drop 0).take (input.length - 0) = input
    rw [show (mkLexer input).input = input from rfl, List.drop_zero, Nat.sub_zero,
        List.take_length]

/-- Witness for the amended C4 at a concrete input. -/
theorem c4_amended_span_coverage_witness :
    reassemble ([([], ⟨['1'], TokenKind.Integer 1⟩)], []) = "1".toList :=
  c4_amended_span_coverage "1".toList 8 ([([], ⟨['1'], TokenKind.Integer 1⟩)], [])
    (by decide) (by rfl)

/-- C9 amended: the recognizer cannot distinguish an embedded NUL from
the end-of-input sentinel.  Whenever the trivia loop leaves the cursor on
a NUL character, the very next recognition returns EndOfInput and the
pull loop stops there, yielding no further tokens; the counterexample
theorem shows the complementary half, a NUL inside a skipped comment does
not end the stream. -/
theorem c9_amended_nul_is_sentinel (s s' : Lexer) (n : Nat)
    (htr : Lexer.eat_whitespace_and_comments n s.advance = .ok s')
    (hc : s'.current = EOF_CHAR) :
    ∃ trivia, s.next_token n = .ok (trivia, ⟨[EOF_CHAR], TokenKind.EOF⟩, s') ∧
      tokeniseAux (n + 1) s = .ok ([], trivia, s') := by
  have hnt : s.next_token n =
      .ok ((s.input.drop s.advance.get_pos).take (s'.get_pos - s.advance.get_pos),
        ⟨[EOF_CHAR], TokenKind.EOF⟩, s') := by
    show (s.advance.eat_whitespace_and_comments n >>= _) = _
    rw [htr, ebind_ok, recognise_eof n s' hc, ebind_ok]
  refine ⟨_, hnt, ?_⟩
  show (s.next_token n >>= _) = _
  rw [hnt, ebind_ok, if_pos rfl]

/-- Witness for the amended C9: on the input one, NUL, two the second
pull lands on the embedded NUL and ends the stream. -/
theorem c9_amended_nul_is_sentinel_witness :
    ∃ trivia, Lexer.next_token 4 ⟨"1\x002".toList, 0⟩ =
        .ok (trivia, ⟨[EOF_CHAR], TokenKind.EOF⟩, ⟨"1\x002".toList, 1⟩) ∧
      tokeniseAux 5 ⟨"1\x002".toList, 0⟩ = .ok ([], trivia, ⟨"1\x002".toList, 1⟩) :=
  c9_amended_nul_is_sentinel ⟨"1\x002".toList, 0⟩ ⟨"1\x002".toList, 1⟩ 4
    (by rfl) (by rfl)

end JackLexer
